
import Mathlib

set_option autoImplicit false

namespace OciGenAI
/-!
Verification of the OCI Generative AI chat adapter
(`langchain_community/chat_models/oci_generative_ai.py`).

The Python module is shallowly embedded: langchain messages become the
inductive `Msg`, OCI wire objects become Lean structures, exceptions become
`Except ChatError`, and dictionaries become association lists.  Every
definition is translated from the source file; line numbers in doc comments
refer to it.
-/

instance exceptDecEq {ε α : Type} [DecidableEq ε] [DecidableEq α] :
    DecidableEq (Except ε α)
  | .ok a, .ok b =>
      if h : a = b then .isTrue (by rw [h])
      else .isFalse (by intro hh; cases hh; exact h rfl)
  | .ok _, .error _ => .isFalse (by intro hh; cases hh)
  | .error _, .ok _ => .isFalse (by intro hh; cases hh)
  | .error e, .error f =>
      if h : e = f then .isTrue (by rw [h])
      else .isFalse (by intro hh; cases hh; exact h rfl)

/-- A langchain tool call (name, argument mapping, identifier) as carried on
an `AIMessage.tool_calls` entry.  The argument mapping (a Python dict) is
embedded as an association list. -/
structure LCToolCall where
  name : String
  args : List (String × String)
  id : String
deriving DecidableEq

/-- The langchain message subtypes the module inspects with `isinstance`:
`SystemMessage`, `HumanMessage`, `AIMessage` (with optional tool calls),
`ToolMessage` (with the back-reference `tool_call_id`), and `chat` for any
other `BaseMessage` subtype (e.g. `ChatMessage`), which no `isinstance`
branch of the module accepts. -/
inductive Msg where
  | system (content : String)
  | human (content : String)
  | ai (content : String) (tool_calls : List LCToolCall)
  | tool (content : String) (tool_call_id : String)
  | chat (role : String) (content : String)
deriving DecidableEq

/-- `.content` field, present on every langchain message. -/
def Msg.content : Msg → String
  | .system c => c
  | .human c => c
  | .ai c _ => c
  | .tool c _ => c
  | .chat _ c => c

/-- `.tool_calls` field: non-empty only on `AIMessage`s that carry calls. -/
def Msg.tool_calls : Msg → List LCToolCall
  | .ai _ tcs => tcs
  | _ => []

/-- `.tool_call_id` field of a `ToolMessage`. -/
def Msg.toolCallId : Msg → String
  | .tool _ id => id
  | _ => ""

/-- `isinstance(message, ToolMessage)`. -/
def Msg.isTool : Msg → Bool
  | .tool _ _ => true
  | _ => false

/-- True for message subtypes outside system/human/assistant/tool. -/
def Msg.isChat : Msg → Bool
  | .chat _ _ => true
  | _ => false

/-- `AIMessage` whose `tool_calls` list is non-empty (Python truthiness of
`message.tool_calls`). -/
def Msg.isAiWithToolCalls : Msg → Bool
  | .ai _ tcs => !tcs.isEmpty
  | _ => false

/-- The exceptions the module raises: `ValueError` for an unknown message
role (lines 185, 374), `NotImplementedError` for tool binding on the Meta
provider (line 397), and the `IndexError` from `messages[-1]` on an empty
message list (line 252). -/
inductive ChatError where
  | unknownRole
  | toolsUnsupported
  | emptyMessages
deriving DecidableEq

/-- `CohereProvider.get_role` (lines 175-185): human maps to USER, assistant
to CHATBOT, system to SYSTEM, tool to TOOL; anything else raises. -/
def cohereGetRole : Msg → Except ChatError String
  | .human _ => .ok "USER"
  | .ai _ _ => .ok "CHATBOT"
  | .system _ => .ok "SYSTEM"
  | .tool _ _ => .ok "TOOL"
  | .chat _ _ => .error .unknownRole

/-- `MetaProvider.get_role` (lines 365-374): human maps to USER, assistant to
ASSISTANT, system to SYSTEM; anything else (including a `ToolMessage`)
raises. -/
def metaGetRole : Msg → Except ChatError String
  | .human _ => .ok "USER"
  | .ai _ _ => .ok "ASSISTANT"
  | .system _ => .ok "SYSTEM"
  | .tool _ _ => .error .unknownRole
  | .chat _ _ => .error .unknownRole

/-- Result shape of a successful Cohere tool conversion, kept minimal; the
Meta provider never produces one. -/
structure OciTool where
  name : String
  description : String
deriving DecidableEq

/-- `MetaProvider.convert_to_oci_tool` (lines 393-397): raises
`NotImplementedError` for every input (the Python parameter is typed as a
wide union, embedded as an arbitrary type). -/
def metaConvertToOciTool {α : Type} (_tool : α) : Except ChatError OciTool :=
  .error .toolsUnsupported

/-!
## Dictionaries and the request-parameter merge (`_prepare_request`, lines 505-515)

Python dictionaries are embedded as association lists with unique keys;
`dictInsert` is Python item assignment (replace in place, else append), and
`dictUnion a b` is dict unpacking where entries of `b` override entries of
`a`, so `chat_params = dictUnion (dictUnion model_kwargs kwargs) oci_params`
is exactly the expression at line 515.
-/

/-- First-occurrence lookup, i.e. Python `d[k]` as `Option`. -/
def dictLookup {V : Type} : List (String × V) → String → Option V
  | [], _ => none
  | (k0, v) :: rest, k => if k0 = k then some v else dictLookup rest k

/-- Python `d[k] = v`: replace the value at an existing key in place, else
append the new entry. -/
def dictInsert {V : Type} : List (String × V) → String → V → List (String × V)
  | [], k, v => [(k, v)]
  | (k0, v0) :: rest, k, v =>
      if k0 = k then (k, v) :: rest else (k0, v0) :: dictInsert rest k v

/-- Python `{**a, **b}`: start from `a`, assign each entry of `b`. -/
def dictUnion {V : Type} (a b : List (String × V)) : List (String × V) :=
  b.foldl (fun acc kv => dictInsert acc kv.1 kv.2) a

/-- `chat_params = {**_model_kwargs, **kwargs, **oci_params}` (line 515). -/
def chat_params {V : Type} (model_kwargs kwargs oci_params : List (String × V)) :
    List (String × V) :=
  dictUnion (dictUnion model_kwargs kwargs) oci_params

/-!
## Cohere message conversion (`CohereProvider.messages_to_oci_params`, lines 187-261)
-/

/-- An OCI Cohere tool call object (`CohereToolCall(name=..., parameters=...)`). -/
structure OciToolCall where
  name : String
  parameters : List (String × String)
deriving DecidableEq

/-- One entry of the OCI `chat_history`: `CohereUserMessage`,
`CohereSystemMessage` or `CohereChatBotMessage` (the history loop at lines
194-216 never builds a `CohereToolMessage`). -/
inductive OciChatMsg where
  | user (message : String)
  | system (message : String)
  | chatbot (message : String) (tool_calls : Option (List OciToolCall))
deriving DecidableEq

/-- A `CohereChatBotMessage` carrying tool calls, i.e. a history entry for an
assistant message that had tool calls. -/
def OciChatMsg.isChatbotWithToolCalls : OciChatMsg → Bool
  | .chatbot _ (some _) => true
  | _ => false

/-- A `CohereToolResult`: the echoed call plus `outputs`, where the Python
code sets `outputs = [dict with the single key output]`; each dict in the
outputs list is embedded as an association list. -/
structure OciToolResult where
  call : OciToolCall
  outputs : List (List (String × String))
deriving DecidableEq

/-- One iteration of the history loop (lines 194-216) for a single message:
USER/SYSTEM entries are appended directly; a CHATBOT message with tool calls
is skipped entirely under `is_force_single_step`, otherwise its tool calls
are translated and empty content is replaced with a single space; a TOOL
message falls through both branches and contributes nothing; an unknown role
raises. -/
def cohereHistoryStep (is_force_single_step : Bool) (msg : Msg) :
    Except ChatError (Option OciChatMsg) :=
  match cohereGetRole msg with
  | .error e => .error e
  | .ok role =>
    if role == "USER" then .ok (some (.user msg.content))
    else if role == "SYSTEM" then .ok (some (.system msg.content))
    else if role == "CHATBOT" then
      if !msg.tool_calls.isEmpty && is_force_single_step then .ok none
      else
        .ok (some (.chatbot (if msg.content == "" then " " else msg.content)
          (if msg.tool_calls.isEmpty then none
           else some (msg.tool_calls.map fun tc => OciToolCall.mk tc.name tc.args))))
    else .ok none

/-- The whole history loop over `messages[:-1]` (lines 192-216): appends the
non-skipped entries in order, propagating the first role error. -/
def cohereChatHistory (is_force_single_step : Bool) :
    List Msg → Except ChatError (List OciChatMsg)
  | [] => .ok []
  | m :: rest =>
    match cohereHistoryStep is_force_single_step m,
        cohereChatHistory is_force_single_step rest with
    | .error e, _ => .error e
    | .ok _, .error e => .error e
    | .ok none, .ok t => .ok t
    | .ok (some e), .ok t => .ok (e :: t)

/-- Reverse walk collecting messages until (and including) the most recent
`HumanMessage` (lines 219-223), before the final re-reversal. -/
def takeThroughHuman : List Msg → List Msg
  | [] => []
  | m :: rest => if m matches .human _ then [m] else m :: takeThroughHuman rest

/-- `current_chat_turn_messages` (lines 218-224): the suffix of the history
from the most recent human message on (the whole list when there is none). -/
def currentChatTurn (messages : List Msg) : List Msg :=
  (takeThroughHuman messages.reverse).reverse

/-- `previous_ai_msg.tool_calls` for the last assistant-with-tool-calls
message of the turn, or `[]` when there is none (`if previous_ai_msgs:` at
line 235 then skips the correlation loop). -/
def lastAiToolCalls (turn : List Msg) : List LCToolCall :=
  match (turn.filter Msg.isAiWithToolCalls).getLast? with
  | some prev => prev.tool_calls
  | none => []

/-- The inner correlation loop (lines 237-247): for every tool call of
`calls` whose id equals the tool message's back-reference, one
`CohereToolResult` pairing that call's name and args with
`[dict output := content]`. -/
def matchResults (calls : List LCToolCall) (content tool_call_id : String) :
    List OciToolResult :=
  (calls.filter fun tc => tc.id == tool_call_id).map fun tc =>
    OciToolResult.mk (OciToolCall.mk tc.name tc.args) [[("output", content)]]

/-- The tool results one `ToolMessage` of the current turn contributes
(lines 228-247): the correlation loop against the tool calls of the last
assistant-with-tool-calls message of the turn, nothing when there is no such
message. -/
def toolResultsForMessage (turn : List Msg) (content tool_call_id : String) :
    List OciToolResult :=
  match (turn.filter Msg.isAiWithToolCalls).getLast? with
  | none => []
  | some prev => matchResults prev.tool_calls content tool_call_id

/-- `oci_tool_results` before the emptiness check (lines 226-247): the
concatenated contributions of the turn's tool messages, in order. -/
def ociToolResults (turn : List Msg) : List OciToolResult :=
  turn.flatMap fun m =>
    match m with
    | .tool content id => toolResultsForMessage turn content id
    | _ => []

/-- `models.BaseChatRequest.API_FORMAT_COHERE`. -/
def API_FORMAT_COHERE : String := "COHERE"

/-- The dict returned by `messages_to_oci_params` (lines 254-261):
`tool_results` is `none` when the key is dropped by the final
`v is not None` filter. -/
structure CohereOciParams where
  message : String
  chat_history : List OciChatMsg
  tool_results : Option (List OciToolResult)
  api_format : String
deriving DecidableEq

/-- The `tool_results` the params carry, as a plain list (empty when the key
was dropped). -/
def CohereOciParams.toolResultsList (p : CohereOciParams) : List OciToolResult :=
  p.tool_results.getD []

/-- `CohereProvider.messages_to_oci_params` (lines 187-261): build the chat
history from `messages[:-1]`, extract the current turn, correlate tool
results, set `message` to `""` when tool results exist and otherwise to the
last message's content (`messages[-1]` raises on an empty list), and drop
the `tool_results` key when the list is empty. -/
def messages_to_oci_params (messages : List Msg) (is_force_single_step : Bool) :
    Except ChatError CohereOciParams :=
  match cohereChatHistory is_force_single_step messages.dropLast with
  | .error e => .error e
  | .ok oci_chat_history =>
    let results := ociToolResults (currentChatTurn messages)
    if results.isEmpty then
      match messages.getLast? with
      | some last => .ok ⟨last.content, oci_chat_history, none, API_FORMAT_COHERE⟩
      | none => .error .emptyMessages
    else
      .ok ⟨"", oci_chat_history, some results, API_FORMAT_COHERE⟩

/-!
## Stop-token enforcement (`_generate`, lines 601-607) and streaming (`_stream`, lines 638-653)
-/

/-- Some stop token starts at the head of `t`. -/
def stopMatchAt (stop : List String) (t : List Char) : Bool :=
  stop.any fun s => s.data.isPrefixOf t

/-- Truncate at the first position where a stop token starts. -/
def enforceStopAux (stop : List String) : List Char → List Char
  | [] => []
  | c :: rest =>
      if stopMatchAt stop (c :: rest) then [] else c :: enforceStopAux stop rest

/-- Modelled from the spec: `enforce_stop_tokens` lives in
`langchain_community/llms/utils.py`, which is not under `src/`; the spec
says the non-streaming path must "truncate the text at the first occurrence
of any stop token". -/
def enforce_stop_tokens (text : String) (stop : List String) : String :=
  ⟨enforceStopAux stop text.data⟩

/-- The content of the message `_generate` returns on the non-streaming path
(lines 604-607): the provider-extracted response text, stop-enforced exactly
when a stop list was supplied. -/
def generateContent (text : String) (stop : Option (List String)) : String :=
  match stop with
  | some s => enforce_stop_tokens text s
  | none => text

/-- Cohere `chat_stream_to_text` (lines 152-156): the event's `text` field
when present and no `finishReason` field is present, else the empty
string.  A streamed event payload is embedded by its two relevant optional
fields. -/
structure CohereStreamEvent where
  text : Option String
  finishReason : Option String
deriving DecidableEq

def cohereChatStreamToText (e : CohereStreamEvent) : String :=
  match e.text, e.finishReason with
  | some t, none => t
  | _, _ => ""

/-- The contents of the chunks `_stream` yields (lines 645-653): one chunk
per event, each carrying exactly the provider-extracted delta.  The `stop`
list reaches `_prepare_request` (line 645) and thus the backend request, but
never touches the emitted deltas; it is a parameter here because it is one
of `_stream`, and the theorems show the chunks do not depend on it. -/
def streamChunkContents {ε : Type} (chat_stream_to_text : ε → String)
    (stop : Option (List String)) (events : List ε) : List String :=
  events.map chat_stream_to_text

/-!
## Fresh tool-call identifiers (`_convert_oci_tool_call_to_langchain`, lines 95-98)

`uuid.uuid4().hex` draws a fresh identifier from the environment and looks at
nothing else; the supply of fresh identifiers is embedded as a function from
the draw index, so the n-th conversion of a response consumes the n-th draw.
-/

/-- A tool-call payload of the provider response: `name` and `parameters`;
it carries no identifier. -/
structure OciRespToolCall where
  name : String
  parameters : List (String × String)
deriving DecidableEq

/-- `_convert_oci_tool_call_to_langchain` (lines 95-98) given the identifier
drawn for this call: the langchain `ToolCall` keeps the payload's name and
parameters and takes the fresh identifier. -/
def convert_oci_tool_call_to_langchain (freshId : String) (tc : OciRespToolCall) :
    LCToolCall :=
  LCToolCall.mk tc.name tc.parameters freshId

def convertResponseToolCallsAux (fresh : Nat → String) (i : Nat) :
    List OciRespToolCall → List LCToolCall
  | [] => []
  | tc :: rest =>
      convert_oci_tool_call_to_langchain (fresh i) tc ::
        convertResponseToolCallsAux fresh (i + 1) rest

/-- The tool calls attached to the returned assistant message (lines
618-624): each payload converted with the next fresh identifier. -/
def convertResponseToolCalls (fresh : Nat → String) (tcs : List OciRespToolCall) :
    List LCToolCall :=
  convertResponseToolCallsAux fresh 0 tcs

/-!
## Tool-description cleaning (`_remove_signature_from_tool_description`, lines 60-68)

The function applies two `re.sub` calls.  The first,
`re.sub(rf"^NAME\(.*?\) -(?:> \w+? -)? ", "", description)`, strips one
leading signature fragment: the tool name, a parenthesized argument part
(lazy, `.` not matching newline), `" -"`, an optional `"> RETURNTYPE -"`
with a lazy non-empty `\w+?`, and a final space.  The second,
`re.sub(r"(?s)(?:\n?\n\s*?)?Args:.*$", "", description)`, truncates at the
leftmost position from which an optional one-or-two-newline-then-whitespace
gap followed by `Args:` reaches (with DOTALL `.*$`) the end of the string.
Both are embedded below with Python's leftmost, lazy/greedy backtracking
order made explicit; the tool name is assumed to contain no regex
metacharacters (it is interpolated into the pattern verbatim).
-/

/-- Python `\w` on ASCII: letters, digits, underscore. -/
def isWordChar (c : Char) : Bool := c.isAlphanum || c == '_'

/-- Python `\s` on ASCII. -/
def isPySpace (c : Char) : Bool :=
  c == ' ' || c == '\t' || c == '\n' || c == '\r' || c == '\x0b' || c == '\x0c'

/-- The closing `" -"` of the optional group followed by the final space of
the pattern. -/
def closeThenSpace : List Char → Option (List Char)
  | ' ' :: '-' :: ' ' :: r => some r
  | _ => none

/-- After `"> "`: lazily take at least one word char, then match the closing
`" -"` of the optional group followed by the final space of the pattern;
returns the remainder after the whole match. -/
def sigArrowRest : List Char → Option (List Char)
  | [] => none
  | c :: rest =>
      if isWordChar c then (closeThenSpace rest).orElse (fun _ => sigArrowRest rest)
      else none

/-- The `"> \w+? -"` group. -/
def arrowGroup : List Char → Option (List Char)
  | '>' :: ' ' :: v => sigArrowRest v
  | _ => none

/-- The empty-group alternative: just the final space of the pattern. -/
def spaceOnly : List Char → Option (List Char)
  | ' ' :: r => some r
  | _ => none

/-- After the closing parenthesis: match `" -"`, then preferably the
`"> \w+? -"` group, else nothing, then the final space. -/
def sigAfterClose : List Char → Option (List Char)
  | ' ' :: '-' :: u => (arrowGroup u).orElse (fun _ => spaceOnly u)
  | _ => none

/-- The lazy `.*?\)` scan: at each position first try to close the
parenthesized part here, else consume one non-newline character. -/
def sigScan : List Char → Option (List Char)
  | [] => none
  | c :: u =>
      (if c = ')' then sigAfterClose u else none).orElse
      (fun _ => if c ≠ '\n' then sigScan u else none)

/-- The first `re.sub` (line 66): when the anchored signature pattern
matches a prefix of the description, drop that prefix. -/
def removeSignatureStep (name desc : List Char) : List Char :=
  if name.isPrefixOf desc then
    match desc.drop name.length with
    | c :: u =>
        if c = '(' then
          match sigScan u with
          | some r => r
          | none => desc
        else desc
    | [] => desc
  else desc

def argsTag : List Char := ['A', 'r', 'g', 's', ':']

/-- Whitespace (the lazy `\s*?`) then `Args:` starts here. -/
def wsThenArgs : List Char → Bool
  | [] => false
  | c :: rest => argsTag.isPrefixOf (c :: rest) || (isPySpace c && wsThenArgs rest)

/-- The pattern `(?:\n?\n\s*?)?Args:` matches at this position: either
`Args:` directly, or a newline, optionally a second newline and further
whitespace (all covered by whitespace after one newline), then `Args:`. -/
def argsMatchAt (t : List Char) : Bool :=
  argsTag.isPrefixOf t ||
    (match t with
     | c :: rest => c == '\n' && wsThenArgs rest
     | [] => false)

/-- The second `re.sub` (line 67): truncate at the leftmost match position
(every match runs to the end of the string via DOTALL `.*$`). -/
def stripArgsFrom : List Char → List Char
  | [] => []
  | c :: rest => if argsMatchAt (c :: rest) then [] else c :: stripArgsFrom rest

/-- `_remove_signature_from_tool_description` (lines 60-68): strip the
signature prefix, then truncate the `Args:` section. -/
def remove_signature_from_tool_description (name description : String) : String :=
  ⟨stripArgsFrom (removeSignatureStep name.data description.data)⟩
/-- C8: for the Cohere provider role mapping fails exactly on message types
outside system/human/assistant/tool; for the Meta provider it fails exactly
on message types outside system/human/assistant, in particular on a
tool-result message. -/
theorem role_mapping_fails_exactly_outside_supported_set (m : Msg) :
    (cohereGetRole m = .error .unknownRole ↔ m.isChat = true) ∧
    (metaGetRole m = .error .unknownRole ↔ (m.isChat = true ∨ m.isTool = true)) := by
  cases m <;> simp [cohereGetRole, metaGetRole, Msg.isChat, Msg.isTool]

/-- C7: the Meta provider's tool conversion fails with the
tools-unsupported error for every input, of any type and shape. -/
theorem meta_convert_to_oci_tool_always_fails {α : Type} (tool : α) :
    metaConvertToOciTool tool = .error .toolsUnsupported := rfl

theorem dictLookup_dictInsert {V : Type} (a : List (String × V)) (k : String)
    (v : V) (k1 : String) :
    dictLookup (dictInsert a k v) k1 = if k = k1 then some v else dictLookup a k1 := by
  induction a with
  | nil => simp [dictInsert, dictLookup]
  | cons hd tl ih =>
      obtain ⟨k0, v0⟩ := hd
      by_cases h0 : k0 = k
      · subst h0
        simp only [dictInsert, if_pos rfl, dictLookup]
        by_cases h1 : k0 = k1 <;> simp [h1]
      · simp only [dictInsert, if_neg h0, dictLookup]
        by_cases h1 : k0 = k1
        · subst h1
          have : ¬k = k0 := fun h => h0 h.symm
          simp [this]
        · simp [h1, ih]

theorem dictLookup_eq_none_of_not_mem {V : Type} (b : List (String × V))
    (k : String) (h : k ∉ b.map Prod.fst) : dictLookup b k = none := by
  induction b with
  | nil => rfl
  | cons hd tl ih =>
      obtain ⟨k0, v0⟩ := hd
      simp only [List.map_cons, List.mem_cons] at h
      push_neg at h
      have hk0 : k0 ≠ k := fun hh => h.1 hh.symm
      simp [dictLookup, hk0, ih h.2]

theorem dictLookup_dictUnion {V : Type} (b : List (String × V))
    (hb : (b.map Prod.fst).Nodup) (a : List (String × V)) (k : String) :
    dictLookup (dictUnion a b) k = (dictLookup b k).orElse (fun _ => dictLookup a k) := by
  induction b generalizing a with
  | nil => simp [dictUnion, dictLookup, Option.orElse]
  | cons hd tl ih =>
      obtain ⟨k0, v0⟩ := hd
      simp only [List.map_cons, List.nodup_cons] at hb
      have hstep : dictUnion a ((k0, v0) :: tl) = dictUnion (dictInsert a k0 v0) tl := rfl
      rw [hstep, ih hb.2]
      by_cases h : k0 = k
      · subst h
        have : dictLookup tl k0 = none :=
          dictLookup_eq_none_of_not_mem tl k0 hb.1
        simp [dictLookup, this, dictLookup_dictInsert, Option.orElse]
      · simp [dictLookup, h, dictLookup_dictInsert, Option.orElse]

/-- C6: the final parameter mapping merges the three layers with provider
params strongest and caller kwargs above model kwargs: a lookup in the merged
mapping returns the provider-params value when present, else the caller-kwargs
value, else the model-kwargs value.  (`kwargs` and `oci_params` are Python
dicts, so their keys are unique.) -/
theorem chat_params_merge_precedence {V : Type}
    (model_kwargs kwargs oci_params : List (String × V)) (k : String)
    (hkw : (kwargs.map Prod.fst).Nodup) (hop : (oci_params.map Prod.fst).Nodup) :
    dictLookup (chat_params model_kwargs kwargs oci_params) k =
      (dictLookup oci_params k).orElse
        (fun _ => (dictLookup kwargs k).orElse (fun _ => dictLookup model_kwargs k)) := by
  unfold chat_params
  rw [dictLookup_dictUnion oci_params hop, dictLookup_dictUnion kwargs hkw]

/-- Witness for C6 at concrete layers: the shared key takes the provider
value, a key shared by the lower two layers takes the caller-kwargs value,
and a key only in model kwargs survives. -/
theorem chat_params_merge_precedence_witness :
    dictLookup (chat_params [("temperature", 1), ("seed", 7), ("message", 0)]
        [("temperature", 2)] [("message", 3)]) "message" =
      (dictLookup [("message", 3)] "message").orElse
        (fun _ => (dictLookup [("temperature", 2)] "message").orElse
          (fun _ => dictLookup [("temperature", 1), ("seed", 7), ("message", 0)] "message")) :=
  chat_params_merge_precedence
    [("temperature", 1), ("seed", 7), ("message", 0)] [("temperature", 2)] [("message", 3)]
    "message" (by decide) (by decide)

theorem messages_to_oci_params_ok_chat_history (msgs : List Msg) (f : Bool)
    (params : CohereOciParams) (hok : messages_to_oci_params msgs f = .ok params) :
    cohereChatHistory f msgs.dropLast = .ok params.chat_history := by
  unfold messages_to_oci_params at hok
  cases hh : cohereChatHistory f msgs.dropLast with
  | error err => rw [hh] at hok; exact absurd hok (by simp)
  | ok hist =>
      rw [hh] at hok
      by_cases hres : (ociToolResults (currentChatTurn msgs)).isEmpty
      · simp only [hres, if_true] at hok
        cases hlast : msgs.getLast? with
        | none => rw [hlast] at hok; exact absurd hok (by simp)
        | some m =>
            rw [hlast] at hok
            cases hok
            rfl
      · simp only [hres, if_false] at hok
        cases hok
        rfl

theorem messages_to_oci_params_ok_toolResultsList (msgs : List Msg) (f : Bool)
    (params : CohereOciParams) (hok : messages_to_oci_params msgs f = .ok params) :
    params.toolResultsList = ociToolResults (currentChatTurn msgs) := by
  unfold messages_to_oci_params at hok
  cases hh : cohereChatHistory f msgs.dropLast with
  | error err => rw [hh] at hok; exact absurd hok (by simp)
  | ok hist =>
      rw [hh] at hok
      by_cases hres : (ociToolResults (currentChatTurn msgs)).isEmpty
      · simp only [hres, if_true] at hok
        cases hlast : msgs.getLast? with
        | none => rw [hlast] at hok; exact absurd hok (by simp)
        | some m =>
            rw [hlast] at hok
            cases hok
            simp [CohereOciParams.toolResultsList, List.isEmpty_iff.mp hres]
      · simp only [hres, if_false] at hok
        cases hok
        rfl

theorem mem_cohereChatHistory (f : Bool) (l : List Msg) (hist : List OciChatMsg)
    (hok : cohereChatHistory f l = .ok hist) (e : OciChatMsg) (he : e ∈ hist) :
    ∃ m ∈ l, cohereHistoryStep f m = .ok (some e) := by
  induction l generalizing hist with
  | nil =>
      cases hok
      cases he
  | cons m rest ih =>
      unfold cohereChatHistory at hok
      cases hstep : cohereHistoryStep f m with
      | error err => rw [hstep] at hok; exact absurd hok (by simp)
      | ok o =>
          rw [hstep] at hok
          cases htl : cohereChatHistory f rest with
          | error err =>
              rw [htl] at hok
              cases o <;> exact absurd hok (by simp)
          | ok t =>
              rw [htl] at hok
              cases o with
              | none =>
                  cases hok
                  obtain ⟨m1, hm1, hs1⟩ := ih _ htl he
                  exact ⟨m1, List.mem_cons_of_mem m hm1, hs1⟩
              | some e0 =>
                  cases hok
                  rcases List.mem_cons.mp he with h | h
                  · subst h
                    exact ⟨m, List.mem_cons_self m rest, hstep⟩
                  · obtain ⟨m1, hm1, hs1⟩ := ih _ htl h
                    exact ⟨m1, List.mem_cons_of_mem m hm1, hs1⟩

theorem cohereHistoryStep_force_no_tool_call_entry (m : Msg) (e : OciChatMsg)
    (h : cohereHistoryStep true m = .ok (some e)) :
    e.isChatbotWithToolCalls = false := by
  cases m with
  | system c => cases h; rfl
  | human c => cases h; rfl
  | tool c id => cases h
  | chat r c => cases h
  | ai c tcs =>
      cases tcs with
      | nil => cases h; rfl
      | cons tc rest =>
          exact absurd h (by simp [cohereHistoryStep, cohereGetRole, Msg.tool_calls])

/-- C3: under `is_force_single_step = true` the produced chat history contains
no entry for an assistant message carrying tool calls: every history entry is
a user/system entry or a chatbot entry without tool calls. -/
theorem force_single_step_history_has_no_tool_call_entries
    (msgs : List Msg) (params : CohereOciParams)
    (hok : messages_to_oci_params msgs true = .ok params) :
    ∀ e ∈ params.chat_history, e.isChatbotWithToolCalls = false := by
  intro e he
  obtain ⟨m, _, hstep⟩ :=
    mem_cohereChatHistory true msgs.dropLast params.chat_history
      (messages_to_oci_params_ok_chat_history msgs true params hok) e he
  exact cohereHistoryStep_force_no_tool_call_entry m e hstep

/-- Witness for C3: a history with a tool-call assistant turn, a plain
assistant turn and a user turn; the surviving chatbot entry carries no tool
calls. -/
theorem force_single_step_history_witness :
    OciChatMsg.isChatbotWithToolCalls (OciChatMsg.chatbot "fine" none) = false :=
  force_single_step_history_has_no_tool_call_entries
    [Msg.human "q", Msg.ai "plan" [⟨"t", [], "id1"⟩], Msg.ai "fine" [],
      Msg.human "go"]
    (CohereOciParams.mk "go" [OciChatMsg.user "q", OciChatMsg.chatbot "fine" none]
      none API_FORMAT_COHERE)
    (by decide)
    (OciChatMsg.chatbot "fine" none)
    (by decide)

theorem flatMap_toolResults_filter (turn : List Msg) (L : List Msg) :
    (L.flatMap fun m =>
      match m with
      | Msg.tool content id => toolResultsForMessage turn content id
      | _ => []) =
    (L.filter Msg.isTool).flatMap
      (fun m => toolResultsForMessage turn m.content m.toolCallId) := by
  induction L with
  | nil => rfl
  | cons m rest ih =>
      cases m <;>
        simp [List.flatMap_cons, List.filter_cons, Msg.isTool, Msg.content,
          Msg.toolCallId, ih]

theorem ociToolResults_eq_filter_flatMap (turn : List Msg) :
    ociToolResults turn =
      (turn.filter Msg.isTool).flatMap
        (fun m => toolResultsForMessage turn m.content m.toolCallId) :=
  flatMap_toolResults_filter turn turn

theorem flatMap_length_of_singletons {α β : Type} (L : List α) (g : α → List β)
    (h : ∀ a ∈ L, (g a).length = 1) : (L.flatMap g).length = L.length := by
  induction L with
  | nil => rfl
  | cons a rest ih =>
      simp only [List.flatMap_cons, List.length_append, List.length_cons,
        h a (List.mem_cons_self a rest), ih fun b hb => h b (List.mem_cons_of_mem a hb)]
      omega

/-- C1: when every tool-result message of the current turn correlates to
exactly one tool call on the last assistant-with-tool-calls message of the
turn, `messages_to_oci_params` emits exactly one tool-result object per
tool-result message — `matchResults` pairs the matched call's name and
argument mapping with the tool message's output content — and their total
number equals the number of tool-result messages. -/
theorem cohere_tool_results_exact_pairing
    (msgs : List Msg) (force : Bool) (params : CohereOciParams) (prev : Msg)
    (hok : messages_to_oci_params msgs force = .ok params)
    (hprev : ((currentChatTurn msgs).filter Msg.isAiWithToolCalls).getLast? = some prev)
    (hmatch : ∀ m ∈ (currentChatTurn msgs).filter Msg.isTool,
      (prev.tool_calls.filter fun tc => tc.id == m.toolCallId).length = 1) :
    params.toolResultsList =
      ((currentChatTurn msgs).filter Msg.isTool).flatMap
        (fun m => matchResults prev.tool_calls m.content m.toolCallId) ∧
    params.toolResultsList.length =
      ((currentChatTurn msgs).filter Msg.isTool).length := by
  have hbase := messages_to_oci_params_ok_toolResultsList msgs force params hok
  have hform : params.toolResultsList =
      ((currentChatTurn msgs).filter Msg.isTool).flatMap
        (fun m => matchResults prev.tool_calls m.content m.toolCallId) := by
    rw [hbase, ociToolResults_eq_filter_flatMap]
    simp only [toolResultsForMessage, hprev]
  refine ⟨hform, ?_⟩
  rw [hform]
  exact flatMap_length_of_singletons _ _ fun m hm => by
    simp only [matchResults, List.length_map]
    exact hmatch m hm

/-- Witness for C1: one user message, one assistant message issuing a single
tool call, one tool-result message answering it; exactly one tool-result
object is produced and it pairs the call with the tool output. -/
theorem cohere_tool_results_exact_pairing_witness :
    (CohereOciParams.mk ""
        [OciChatMsg.user "q",
          OciChatMsg.chatbot " " (some [OciToolCall.mk "get" [("city", "SF")]])]
        (some [OciToolResult.mk (OciToolCall.mk "get" [("city", "SF")])
          [[("output", "sunny")]]])
        API_FORMAT_COHERE).toolResultsList =
      ((currentChatTurn
          [Msg.human "q", Msg.ai "" [⟨"get", [("city", "SF")], "call1"⟩],
            Msg.tool "sunny" "call1"]).filter Msg.isTool).flatMap
        (fun m =>
          matchResults (Msg.ai "" [⟨"get", [("city", "SF")], "call1"⟩]).tool_calls
            m.content m.toolCallId) ∧
    (CohereOciParams.mk ""
        [OciChatMsg.user "q",
          OciChatMsg.chatbot " " (some [OciToolCall.mk "get" [("city", "SF")]])]
        (some [OciToolResult.mk (OciToolCall.mk "get" [("city", "SF")])
          [[("output", "sunny")]]])
        API_FORMAT_COHERE).toolResultsList.length =
      ((currentChatTurn
          [Msg.human "q", Msg.ai "" [⟨"get", [("city", "SF")], "call1"⟩],
            Msg.tool "sunny" "call1"]).filter Msg.isTool).length :=
  cohere_tool_results_exact_pairing
    [Msg.human "q", Msg.ai "" [⟨"get", [("city", "SF")], "call1"⟩],
      Msg.tool "sunny" "call1"]
    false
    (CohereOciParams.mk ""
      [OciChatMsg.user "q",
        OciChatMsg.chatbot " " (some [OciToolCall.mk "get" [("city", "SF")]])]
      (some [OciToolResult.mk (OciToolCall.mk "get" [("city", "SF")])
        [[("output", "sunny")]]])
      API_FORMAT_COHERE)
    (Msg.ai "" [⟨"get", [("city", "SF")], "call1"⟩])
    (by decide) (by decide) (by decide)

theorem cohereHistoryStep_ok_of_not_chat (f : Bool) (m : Msg)
    (h : m.isChat = false) : ∃ o, cohereHistoryStep f m = .ok o := by
  cases m with
  | system c => exact ⟨_, rfl⟩
  | human c => exact ⟨_, rfl⟩
  | ai c tcs =>
      cases hc : !tcs.isEmpty && f with
      | true =>
          exact ⟨none, by simp [cohereHistoryStep, cohereGetRole, Msg.tool_calls, hc]⟩
      | false =>
          exact ⟨some (.chatbot (if c == "" then " " else c)
              (if tcs.isEmpty then none
               else some (tcs.map fun tc => OciToolCall.mk tc.name tc.args))),
            by simp [cohereHistoryStep, cohereGetRole, Msg.tool_calls, Msg.content, hc]⟩
  | tool c id => exact ⟨_, rfl⟩
  | chat r c => cases h

theorem cohereChatHistory_ok_of_no_chat (f : Bool) (l : List Msg)
    (h : ∀ m ∈ l, m.isChat = false) :
    ∃ hist, cohereChatHistory f l = .ok hist := by
  induction l with
  | nil => exact ⟨[], rfl⟩
  | cons m rest ih =>
      obtain ⟨o, ho⟩ :=
        cohereHistoryStep_ok_of_not_chat f m (h m (List.mem_cons_self m rest))
      obtain ⟨t, ht⟩ := ih fun m1 hm1 => h m1 (List.mem_cons_of_mem m hm1)
      cases o with
      | none => exact ⟨t, by unfold cohereChatHistory; rw [ho, ht]⟩
      | some e => exact ⟨e :: t, by unfold cohereChatHistory; rw [ho, ht]⟩

theorem messages_to_oci_params_ok_exists (msgs : List Msg) (f : Bool)
    (hne : msgs ≠ []) (hroles : ∀ m ∈ msgs.dropLast, m.isChat = false) :
    ∃ params, messages_to_oci_params msgs f = .ok params := by
  obtain ⟨hist, hh⟩ := cohereChatHistory_ok_of_no_chat f msgs.dropLast hroles
  unfold messages_to_oci_params
  rw [hh]
  by_cases hres : (ociToolResults (currentChatTurn msgs)).isEmpty
  · simp only [hres, if_true]
    obtain ⟨m, hm⟩ := Option.isSome_iff_exists.mp (List.getLast?_isSome.mpr hne)
    rw [hm]
    exact ⟨_, rfl⟩
  · simp only [hres, if_false]
    exact ⟨_, rfl⟩

theorem filter_aiWithToolCalls_skips_tool (pre post : List Msg)
    (content tcid : String) :
    (pre ++ Msg.tool content tcid :: post).filter Msg.isAiWithToolCalls =
      (pre ++ post).filter Msg.isAiWithToolCalls := by
  simp [List.filter_append, List.filter_cons, Msg.isAiWithToolCalls]

theorem toolResultsForMessage_unmatched (turn : List Msg) (content tcid : String)
    (hnomatch : (lastAiToolCalls turn).filter (fun tc => tc.id == tcid) = []) :
    toolResultsForMessage turn content tcid = [] := by
  unfold toolResultsForMessage
  unfold lastAiToolCalls at hnomatch
  cases hlast : (turn.filter Msg.isAiWithToolCalls).getLast? with
  | none => rfl
  | some prev =>
      rw [hlast] at hnomatch
      simp [matchResults, hnomatch]

theorem ociToolResults_drop_unmatched (pre post : List Msg) (content tcid : String)
    (hnomatch : (lastAiToolCalls (pre ++ Msg.tool content tcid :: post)).filter
      (fun tc => tc.id == tcid) = []) :
    ociToolResults (pre ++ Msg.tool content tcid :: post) =
      ociToolResults (pre ++ post) := by
  have hfilter := filter_aiWithToolCalls_skips_tool pre post content tcid
  have hsame : ∀ c i, toolResultsForMessage (pre ++ Msg.tool content tcid :: post) c i =
      toolResultsForMessage (pre ++ post) c i := by
    intro c i
    unfold toolResultsForMessage
    rw [hfilter]
  have hgone : toolResultsForMessage (pre ++ Msg.tool content tcid :: post) content tcid = [] :=
    toolResultsForMessage_unmatched _ content tcid hnomatch
  unfold ociToolResults
  rw [List.flatMap_append, List.flatMap_cons, List.flatMap_append]
  dsimp only
  rw [hgone, List.nil_append]
  have hfun : (fun m =>
      match m with
      | Msg.tool c i => toolResultsForMessage (pre ++ Msg.tool content tcid :: post) c i
      | _ => ([] : List OciToolResult)) =
      (fun m =>
      match m with
      | Msg.tool c i => toolResultsForMessage (pre ++ post) c i
      | _ => ([] : List OciToolResult)) := by
    funext m
    cases m <;> simp [hsame]
  rw [hfun]

/-- C2: a tool-result message of the current turn whose back-reference
identifier matches no tool call on the last assistant-with-tool-calls
message of the turn contributes no tool-result object and raises no error:
the conversion completes with exactly the tool-results of the remaining
messages. -/
theorem cohere_unmatched_tool_result_silently_omitted
    (msgs : List Msg) (force : Bool) (pre post : List Msg) (content tcid : String)
    (hne : msgs ≠ [])
    (hroles : ∀ m ∈ msgs.dropLast, m.isChat = false)
    (hturn : currentChatTurn msgs = pre ++ Msg.tool content tcid :: post)
    (hnomatch : (lastAiToolCalls (currentChatTurn msgs)).filter
      (fun tc => tc.id == tcid) = []) :
    ∃ params, messages_to_oci_params msgs force = .ok params ∧
      params.toolResultsList = ociToolResults (pre ++ post) := by
  obtain ⟨params, hok⟩ := messages_to_oci_params_ok_exists msgs force hne hroles
  refine ⟨params, hok, ?_⟩
  rw [messages_to_oci_params_ok_toolResultsList msgs force params hok, hturn]
  rw [hturn] at hnomatch
  exact ociToolResults_drop_unmatched pre post content tcid hnomatch

/-- Witness for C2: the tool message answers `callB` but the assistant only
issued `callA`; the call succeeds and produces the tool-results of the
remaining messages (none). -/
theorem cohere_unmatched_tool_result_witness :
    ∃ params,
      messages_to_oci_params
        [Msg.human "q", Msg.ai "x" [⟨"get", [], "callA"⟩], Msg.tool "out" "callB"]
        false = .ok params ∧
      params.toolResultsList =
        ociToolResults [Msg.human "q", Msg.ai "x" [⟨"get", [], "callA"⟩]] :=
  cohere_unmatched_tool_result_silently_omitted
    [Msg.human "q", Msg.ai "x" [⟨"get", [], "callA"⟩], Msg.tool "out" "callB"]
    false [Msg.human "q", Msg.ai "x" [⟨"get", [], "callA"⟩]] [] "out" "callB"
    (by decide) (by decide) (by decide) (by decide)

theorem enforceStopAux_prefixOf (stop : List String) (l : List Char) :
    enforceStopAux stop l <+: l := by
  induction l with
  | nil => exact List.prefix_refl []
  | cons c rest ih =>
      unfold enforceStopAux
      by_cases h : stopMatchAt stop (c :: rest)
      · simp [h]
      · simpa [h] using ih

theorem enforceStopAux_no_match (stop : List String) (l : List Char) :
    ∀ i, i < (enforceStopAux stop l).length → stopMatchAt stop (l.drop i) = false := by
  induction l with
  | nil => intro i h; simp [enforceStopAux] at h
  | cons c rest ih =>
      intro i hi
      unfold enforceStopAux at hi
      by_cases h : stopMatchAt stop (c :: rest)
      · simp [h] at hi
      · rw [if_neg h] at hi
        cases i with
        | zero => simpa using Bool.of_not_eq_true h
        | succ j =>
            simp only [List.length_cons, Nat.succ_lt_succ_iff] at hi
            simpa using ih j hi

theorem enforceStopAux_terminated (stop : List String) (l : List Char) :
    (enforceStopAux stop l).length = l.length ∨
      stopMatchAt stop (l.drop (enforceStopAux stop l).length) = true := by
  induction l with
  | nil => left; rfl
  | cons c rest ih =>
      unfold enforceStopAux
      by_cases h : stopMatchAt stop (c :: rest)
      · right
        simp [h]
      · rw [if_neg h]
        rcases ih with h1 | h1
        · left; simp [h1]
        · right; simpa using h1

/-- C5: on the non-streaming path with a stop list supplied, the returned
content is the response text truncated at the first occurrence of any stop
token: it is a prefix of the text, no stop token starts anywhere inside it,
and it either is the whole text or ends exactly where a stop token starts;
in particular the spec's example text stops before "because". -/
theorem generate_content_truncates_at_first_stop (text : String) (stop : List String) :
    (generateContent text (some stop)).data <+: text.data ∧
    (∀ i, i < (generateContent text (some stop)).data.length →
      stopMatchAt stop (text.data.drop i) = false) ∧
    ((generateContent text (some stop)).data.length = text.data.length ∨
      stopMatchAt stop (text.data.drop (generateContent text (some stop)).data.length) = true) ∧
    generateContent "The answer is 42 because reasons" (some ["because"]) =
      "The answer is 42 " := by
  refine ⟨enforceStopAux_prefixOf stop text.data,
    enforceStopAux_no_match stop text.data,
    enforceStopAux_terminated stop text.data, by decide⟩

/-- Witness for C5: the spec's example, truncated before "because", with no
stop token starting inside the kept prefix. -/
theorem generate_content_truncates_witness :
    stopMatchAt ["because"]
      ((String.data "The answer is 42 because reasons").drop 0) = false ∧
    generateContent "The answer is 42 because reasons" (some ["because"]) =
      "The answer is 42 " := by
  have h := generate_content_truncates_at_first_stop
    "The answer is 42 because reasons" ["because"]
  exact ⟨h.2.1 0 (by decide), h.2.2.2⟩

/-- C10: the streaming path applies no client-side stop-token truncation:
the emitted chunk contents are exactly the provider-extracted deltas for any
stop list (so any two stop lists yield identical chunks), and concatenating
the streamed chunks can retain a stop token that the non-streaming path
would remove, as on the spec's example event. -/
theorem stream_chunks_ignore_stop {ε : Type} (chat_stream_to_text : ε → String)
    (events : List ε) (stop other : Option (List String)) :
    streamChunkContents chat_stream_to_text stop events =
      events.map chat_stream_to_text ∧
    streamChunkContents chat_stream_to_text stop events =
      streamChunkContents chat_stream_to_text other events ∧
    String.join (streamChunkContents cohereChatStreamToText (some ["because"])
        [CohereStreamEvent.mk (some "The answer is 42 because reasons") none]) ≠
      enforce_stop_tokens "The answer is 42 because reasons" ["because"] :=
  ⟨rfl, rfl, by decide⟩

theorem convertResponseToolCallsAux_ids (fresh : Nat → String) (i : Nat)
    (tcs : List OciRespToolCall) :
    (convertResponseToolCallsAux fresh i tcs).map LCToolCall.id =
      (List.range' i tcs.length).map fresh := by
  induction tcs generalizing i with
  | nil => rfl
  | cons tc rest ih =>
      simp [convertResponseToolCallsAux, convert_oci_tool_call_to_langchain,
        List.range'_succ, ih]

/-- C9: converted tool-call identifiers come only from the fresh supply:
two responses of the same size get identical identifier lists whatever their
payloads, and when the supply is duplicate-free on the consumed draws the
identifiers within one response are pairwise distinct. -/
theorem converted_tool_call_ids_fresh_and_distinct (fresh : Nat → String)
    (tcs other : List OciRespToolCall) (hlen : tcs.length = other.length)
    (hnodup : ((List.range tcs.length).map fresh).Nodup) :
    (convertResponseToolCalls fresh tcs).map LCToolCall.id =
      (convertResponseToolCalls fresh other).map LCToolCall.id ∧
    ((convertResponseToolCalls fresh tcs).map LCToolCall.id).Nodup := by
  have hids : ∀ l : List OciRespToolCall,
      (convertResponseToolCalls fresh l).map LCToolCall.id =
        (List.range l.length).map fresh := by
    intro l
    rw [convertResponseToolCalls, convertResponseToolCallsAux_ids, List.range_eq_range']
  refine ⟨?_, ?_⟩
  · rw [hids tcs, hids other, hlen]
  · rw [hids tcs]
    exact hnodup

/-- Witness for C9: two different two-call payload lists under the same
supply get the same identifiers, and those are distinct. -/
theorem converted_tool_call_ids_witness :
    (convertResponseToolCalls (fun n => String.mk (List.replicate n 'x'))
        [⟨"a", []⟩, ⟨"b", [("k", "v")]⟩]).map LCToolCall.id =
      (convertResponseToolCalls (fun n => String.mk (List.replicate n 'x'))
        [⟨"c", [("z", "w")]⟩, ⟨"d", []⟩]).map LCToolCall.id ∧
    ((convertResponseToolCalls (fun n => String.mk (List.replicate n 'x'))
        [⟨"a", []⟩, ⟨"b", [("k", "v")]⟩]).map LCToolCall.id).Nodup :=
  converted_tool_call_ids_fresh_and_distinct
    (fun n => String.mk (List.replicate n 'x'))
    [⟨"a", []⟩, ⟨"b", [("k", "v")]⟩] [⟨"c", [("z", "w")]⟩, ⟨"d", []⟩]
    (by decide) (by decide)

theorem wsThenArgs_append (l t : List Char) (h : wsThenArgs l = true) :
    wsThenArgs (l ++ t) = true := by
  induction l with
  | nil => simp [wsThenArgs] at h
  | cons c rest ih =>
      rw [List.cons_append]
      simp only [wsThenArgs, Bool.or_eq_true, Bool.and_eq_true] at h ⊢
      rcases h with h1 | h1
      · exact Or.inl (List.isPrefixOf_iff_prefix.mpr
          ((List.isPrefixOf_iff_prefix.mp h1).trans (List.prefix_append _ t)))
      · exact Or.inr ⟨h1.1, ih h1.2⟩

theorem argsMatchAt_append (l t : List Char) (h : argsMatchAt l = true) :
    argsMatchAt (l ++ t) = true := by
  unfold argsMatchAt at h ⊢
  simp only [Bool.or_eq_true] at h ⊢
  rcases h with h1 | h1
  · exact Or.inl (List.isPrefixOf_iff_prefix.mpr
      ((List.isPrefixOf_iff_prefix.mp h1).trans (List.prefix_append _ t)))
  · cases l with
    | nil => simp at h1
    | cons c rest =>
        simp only [Bool.and_eq_true] at h1
        exact Or.inr (by
          simp only [List.cons_append, Bool.and_eq_true]
          exact ⟨h1.1, wsThenArgs_append rest t h1.2⟩)

theorem stripArgsFrom_prefixOf (l : List Char) : stripArgsFrom l <+: l := by
  induction l with
  | nil => exact List.prefix_refl []
  | cons c rest ih =>
      unfold stripArgsFrom
      by_cases h : argsMatchAt (c :: rest)
      · simp [h]
      · simpa [h] using ih

theorem stripArgsFrom_no_match_inside (l : List Char) :
    ∀ i, i < (stripArgsFrom l).length → argsMatchAt (l.drop i) = false := by
  induction l with
  | nil => intro i h; simp [stripArgsFrom] at h
  | cons c rest ih =>
      intro i hi
      unfold stripArgsFrom at hi
      by_cases h : argsMatchAt (c :: rest)
      · simp [h] at hi
      · rw [if_neg h] at hi
        cases i with
        | zero => simpa using Bool.of_not_eq_true h
        | succ j =>
            simp only [List.length_cons, Nat.succ_lt_succ_iff] at hi
            simpa using ih j hi

theorem prefixOf_drop {l1 l2 : List Char} (h : l1 <+: l2) (i : Nat) :
    l1.drop i <+: l2.drop i := by
  obtain ⟨t, rfl⟩ := h
  rw [List.drop_append_eq_append_drop]
  exact List.prefix_append _ _

theorem argsMatchAt_stripArgsFrom (l : List Char) (i : Nat) :
    argsMatchAt ((stripArgsFrom l).drop i) = false := by
  by_cases hi : i < (stripArgsFrom l).length
  · obtain ⟨t, ht⟩ := prefixOf_drop (stripArgsFrom_prefixOf l) i
    by_contra hcon
    have htrue := Bool.of_not_eq_false hcon
    have := argsMatchAt_append _ t htrue
    rw [ht] at this
    exact absurd this (by simp [stripArgsFrom_no_match_inside l i hi])
  · rw [List.drop_eq_nil_of_le (Nat.le_of_not_lt hi)]
    rfl

theorem stripArgsFrom_of_no_match (l : List Char)
    (h : ∀ i, argsMatchAt (l.drop i) = false) : stripArgsFrom l = l := by
  induction l with
  | nil => rfl
  | cons c rest ih =>
      have h0 := h 0
      rw [List.drop_zero] at h0
      unfold stripArgsFrom
      rw [if_neg (by simp [h0])]
      exact congrArg (c :: ·) (ih fun i => by
        have := h (i + 1)
        rwa [List.drop_succ_cons] at this)

theorem closeThenSpace_suffix (l r : List Char) (h : closeThenSpace l = some r) :
    r <:+ l := by
  unfold closeThenSpace at h
  split at h
  · cases h
    exact ((List.suffix_cons _ _).trans (List.suffix_cons _ _)).trans
      (List.suffix_cons _ _)
  · cases h

theorem sigArrowRest_suffix (l r : List Char) (h : sigArrowRest l = some r) :
    r <:+ l := by
  induction l with
  | nil => cases h
  | cons c rest ih =>
      unfold sigArrowRest at h
      by_cases hw : isWordChar c
      · rw [if_pos hw] at h
        cases hclose : closeThenSpace rest with
        | some r0 =>
            rw [hclose] at h
            cases h
            exact (closeThenSpace_suffix rest _ hclose).trans (List.suffix_cons c rest)
        | none =>
            rw [hclose] at h
            exact (ih h).trans (List.suffix_cons c rest)
      · rw [if_neg hw] at h
        cases h

theorem arrowGroup_suffix (l r : List Char) (h : arrowGroup l = some r) : r <:+ l := by
  unfold arrowGroup at h
  split at h
  · exact (sigArrowRest_suffix _ r h).trans
      ((List.suffix_cons _ _).trans (List.suffix_cons _ _))
  · cases h

theorem spaceOnly_suffix (l r : List Char) (h : spaceOnly l = some r) : r <:+ l := by
  unfold spaceOnly at h
  split at h
  · cases h
    exact List.suffix_cons _ _
  · cases h

theorem sigAfterClose_suffix (l r : List Char) (h : sigAfterClose l = some r) :
    r <:+ l := by
  unfold sigAfterClose at h
  split at h
  · rename_i u
    cases harrow : arrowGroup u with
    | some r0 =>
        rw [harrow] at h
        cases h
        exact ((arrowGroup_suffix u _ harrow).trans (List.suffix_cons _ _)).trans
          (List.suffix_cons _ _)
    | none =>
        rw [harrow] at h
        exact ((spaceOnly_suffix u r h).trans (List.suffix_cons _ _)).trans
          (List.suffix_cons _ _)
  · cases h

theorem sigScan_suffix (l r : List Char) (h : sigScan l = some r) : r <:+ l := by
  induction l with
  | nil => cases h
  | cons c u ih =>
      unfold sigScan at h
      by_cases hc : c = ')'
      · rw [if_pos hc] at h
        cases hclose : sigAfterClose u with
        | some r0 =>
            rw [hclose] at h
            cases h
            exact (sigAfterClose_suffix u _ hclose).trans (List.suffix_cons c u)
        | none =>
            rw [hclose] at h
            simp only [Option.orElse] at h
            by_cases hn : c ≠ '\n'
            · rw [if_pos hn] at h
              exact (ih h).trans (List.suffix_cons c u)
            · rw [if_neg hn] at h
              cases h
      · rw [if_neg hc] at h
        simp only [Option.orElse] at h
        by_cases hn : c ≠ '\n'
        · rw [if_pos hn] at h
          exact (ih h).trans (List.suffix_cons c u)
        · rw [if_neg hn] at h
          cases h

theorem removeSignatureStep_suffix (name l : List Char) :
    removeSignatureStep name l <:+ l := by
  unfold removeSignatureStep
  by_cases hp : name.isPrefixOf l
  · rw [if_pos hp]
    cases hd : l.drop name.length with
    | nil => exact List.suffix_refl l
    | cons c u =>
        dsimp only
        by_cases hc : c = '('
        · rw [if_pos hc]
          cases hscan : sigScan u with
          | some r =>
              have hcu : c :: u <:+ l := hd ▸ List.drop_suffix name.length l
              exact ((sigScan_suffix u r hscan).trans (List.suffix_cons c u)).trans hcu
          | none => exact List.suffix_refl l
        · rw [if_neg hc]
  · rw [if_neg hp]

theorem no_match_of_suffix {l1 l2 : List Char} (hsuf : l1 <:+ l2)
    (h : ∀ i, argsMatchAt (l2.drop i) = false) :
    ∀ i, argsMatchAt (l1.drop i) = false := by
  obtain ⟨pre, rfl⟩ := hsuf
  intro i
  have := h (pre.length + i)
  rwa [List.drop_append_eq_append_drop,
    List.drop_eq_nil_of_le (Nat.le_add_right pre.length i),
    Nat.add_sub_cancel_left, List.nil_append] at this

/-- Counterexample for C4: the transform applied twice to
"f() - f() - hello" (tool name "f") strips a second signature fragment and
differs from the single application. -/
theorem description_cleaning_not_idempotent :
    remove_signature_from_tool_description "f"
        (remove_signature_from_tool_description "f" "f() - f() - hello") ≠
      remove_signature_from_tool_description "f" "f() - f() - hello" := by
  decide

/-- C4 (amended): the Args-truncation half of the transform is idempotent —
the transform's output contains no match of the Args pattern, so a second
application of the whole transform reduces to the signature-stripping step
alone; the full transform is not idempotent because that step can strip a
further leading signature fragment. -/
theorem description_cleaning_second_pass_is_signature_strip
    (name desc : String) :
    remove_signature_from_tool_description name
        (remove_signature_from_tool_description name desc) =
      ⟨removeSignatureStep name.data
        (remove_signature_from_tool_description name desc).data⟩ := by
  unfold remove_signature_from_tool_description
  refine congrArg String.mk ?_
  exact stripArgsFrom_of_no_match _
    (no_match_of_suffix (removeSignatureStep_suffix name.data _)
      (argsMatchAt_stripArgsFrom _))
end OciGenAI
